import Mathlib

/-!
Verification of the semi-supervised anomaly-detection pipeline
(repository `HPC-Anomaly-Detection`, file `semi_supervised/semi_supervised.py`).

The pipeline partitions normal (ND) and anomalous (AD) records, trains a
reconstruction model on ND data only, calibrates a decision threshold from
validation reconstruction errors, and scores test subsets.

The driver `main` lives in `semi_supervised.py`; the helper functions it
imports (`split_df`, `calculate_threshold`, `evaluate_model`,
`extract_anomalous_data`, `autoencoder_predict`) come from a `utils` module
that is not part of the available sources, so those helpers are modelled
from the specification (sections 4.1-4.4), as indicated on each definition.
Feature values and reconstruction errors are embedded as rationals.
-/

namespace HPCAnomaly

/-- Modelled from the spec: the error taxonomy of section 7
(`InvalidSplitConfig`, `EmptyInput`, `ShapeMismatch`,
`InsufficientCalibrationData`), raised by the missing `utils` helpers. -/
inductive PipelineError where
  | invalidSplitConfig
  | emptyInput
  | shapeMismatch
  | insufficientCalibrationData
deriving DecidableEq, Repr

/-- Modelled from the spec: the deterministic pseudo-random step used to
shuffle record indices reproducibly from a seed (spec 4.1: "shuffles record
indices deterministically using the seed").  A standard linear congruential
step; any deterministic function of the seed works for the spec. -/
def lcg (s : Nat) : Nat := (s * 1103515245 + 12345) % 2147483648

/-- Remove the element at position `i` from the nonempty list `x :: xs`,
returning the removed element and the remaining list (positions past the
end return the head). -/
def pickOut : Nat → α → List α → α × List α
  | 0, x, xs => (x, xs)
  | _ + 1, x, [] => (x, [])
  | i + 1, x, y :: ys => ((pickOut i y ys).1, x :: (pickOut i y ys).2)

lemma pickOut_perm : ∀ (i : Nat) (x : α) (xs : List α),
    List.Perm ((pickOut i x xs).1 :: (pickOut i x xs).2) (x :: xs) := by
  intro i
  induction i with
  | zero => intro x xs; simp [pickOut]
  | succ n ih =>
    intro x xs
    cases xs with
    | nil => simp [pickOut]
    | cons y ys =>
      simp only [pickOut]
      exact (List.Perm.swap x (pickOut n y ys).1 (pickOut n y ys).2).trans
        ((ih y ys).cons x)

lemma pickOut_length : ∀ (i : Nat) (x : α) (xs : List α),
    ((pickOut i x xs).2).length = xs.length := by
  intro i
  induction i with
  | zero => intro x xs; simp [pickOut]
  | succ n ih =>
    intro x xs
    cases xs with
    | nil => simp [pickOut]
    | cons y ys => simp [pickOut, ih y ys]

lemma pickOut_map (f : α → β) : ∀ (i : Nat) (x : α) (xs : List α),
    pickOut i (f x) (xs.map f) = (f (pickOut i x xs).1, (pickOut i x xs).2.map f) := by
  intro i
  induction i with
  | zero => intro x xs; simp [pickOut]
  | succ n ih =>
    intro x xs
    cases xs with
    | nil => simp [pickOut]
    | cons y ys => simp [pickOut, ih y ys]

/-- Modelled from the spec: Fisher-Yates style deterministic shuffle,
driven by the seed through `lcg` (spec 4.1).  The fuel argument is the
number of positions still to fill. -/
def shuffleGo : Nat → Nat → List α → List α
  | 0, _, l => l
  | _ + 1, _, [] => []
  | n + 1, s, x :: xs =>
      (pickOut (s % (xs.length + 1)) x xs).1 ::
        shuffleGo n (lcg s) (pickOut (s % (xs.length + 1)) x xs).2

/-- Modelled from the spec: deterministic seeded shuffle of a record list
(spec 4.1: "shuffles record indices deterministically using the seed"). -/
def shuffle (rand : Nat) (l : List α) : List α := shuffleGo l.length rand l

lemma shuffleGo_perm : ∀ (n s : Nat) (l : List α), List.Perm (shuffleGo n s l) l := by
  intro n
  induction n with
  | zero => intro s l; simp [shuffleGo]
  | succ m ih =>
    intro s l
    cases l with
    | nil => simp [shuffleGo]
    | cons x xs =>
      simp only [shuffleGo]
      exact ((ih (lcg s) _).cons _).trans (pickOut_perm (s % (xs.length + 1)) x xs)

lemma shuffle_perm (rand : Nat) (l : List α) : List.Perm (shuffle rand l) l :=
  shuffleGo_perm l.length rand l

lemma shuffle_length (rand : Nat) (l : List α) : (shuffle rand l).length = l.length :=
  (shuffle_perm rand l).length_eq

lemma shuffle_nodup (rand : Nat) (l : List α) (h : l.Nodup) : (shuffle rand l).Nodup :=
  (shuffle_perm rand l).nodup_iff.mpr h

lemma shuffle_mem {rand : Nat} {l : List α} {a : α} (h : a ∈ shuffle rand l) : a ∈ l :=
  (shuffle_perm rand l).mem_iff.mp h

lemma shuffleGo_map (f : α → β) : ∀ (n s : Nat) (l : List α),
    shuffleGo n s (l.map f) = (shuffleGo n s l).map f := by
  intro n
  induction n with
  | zero => intro s l; simp [shuffleGo]
  | succ m ih =>
    intro s l
    cases l with
    | nil => simp [shuffleGo]
    | cons x xs =>
      simp only [List.map_cons, shuffleGo, List.length_map, pickOut_map f, ih (lcg s)]

lemma shuffle_map (f : α → β) (rand : Nat) (l : List α) :
    shuffle rand (l.map f) = (shuffle rand l).map f := by
  simp [shuffle, List.length_map, shuffleGo_map f]

/-- Modelled from the spec: the Dataset Partitioner contract
`split(records, train_pct, val_pct, test_pct, seed)` of spec 4.1,
called `split_df` in the source.  The seeded shuffle is cut into three
contiguous blocks; block sizes round `pct/100 * n` down, with the test
block absorbing the cumulative-rounding remainder of the requested
fraction (so percentages summing to 100 use every record, while a sum
below 100 leaves the unused remainder out of all three sets).  Fails with
`InvalidSplitConfig` when a percentage is negative or the sum exceeds 100,
and with `EmptyInput` when the input is empty and a positive percentage is
requested (spec 4.1, error conditions). -/
def split_df (l : List α) (train val test : Int) (rand : Nat) :
    Except PipelineError (List α × List α × List α) :=
  if train < 0 ∨ val < 0 ∨ test < 0 ∨ 100 < train + val + test then
    Except.error PipelineError.invalidSplitConfig
  else if l.length = 0 ∧ (0 < train ∨ 0 < val ∨ 0 < test) then
    Except.error PipelineError.emptyInput
  else
    Except.ok
      ((shuffle rand l).take (l.length * train.toNat / 100),
       ((shuffle rand l).drop (l.length * train.toNat / 100)).take
         (l.length * val.toNat / 100),
       (((shuffle rand l).drop (l.length * train.toNat / 100)).drop
           (l.length * val.toNat / 100)).take
         (l.length * (train + val + test).toNat / 100 -
           l.length * train.toNat / 100 - l.length * val.toNat / 100))

lemma split_df_eq_ok {l : List α} {p v t : Int} {s : Nat} {tr va te : List α}
    (h : split_df l p v t s = Except.ok (tr, va, te)) :
    (0 ≤ p ∧ 0 ≤ v ∧ 0 ≤ t ∧ p + v + t ≤ 100) ∧
    tr = (shuffle s l).take (l.length * p.toNat / 100) ∧
    va = ((shuffle s l).drop (l.length * p.toNat / 100)).take
      (l.length * v.toNat / 100) ∧
    te = (((shuffle s l).drop (l.length * p.toNat / 100)).drop
        (l.length * v.toNat / 100)).take
      (l.length * (p + v + t).toNat / 100 -
        l.length * p.toNat / 100 - l.length * v.toNat / 100) := by
  unfold split_df at h
  split_ifs at h with h1 h2
  · push_neg at h1
    obtain ⟨htr, hva, hte⟩ : _ ∧ _ ∧ _ := by
      have := Except.ok.inj h
      exact ⟨congrArg Prod.fst this.symm,
        congrArg (fun q => q.2.1) this.symm, congrArg (fun q => q.2.2) this.symm⟩
    exact ⟨⟨h1.1, h1.2.1, h1.2.2.1, h1.2.2.2⟩, htr, hva, hte⟩

lemma nat_div_add_div_le (a b c : ℕ) : a / c + b / c ≤ (a + b) / c := by
  rcases Nat.eq_zero_or_pos c with hc | hc
  · simp [hc]
  · rw [Nat.le_div_iff_mul_le hc]
    calc (a / c + b / c) * c = a / c * c + b / c * c := by ring
    _ ≤ a + b := Nat.add_le_add (Nat.div_mul_le_self a c) (Nat.div_mul_le_self b c)

lemma split_df_sizes_le {l : List α} {p v t : Int} {s : Nat} {tr va te : List α}
    (h : split_df l p v t s = Except.ok (tr, va, te)) :
    l.length * p.toNat / 100 + l.length * v.toNat / 100 ≤
      l.length * (p + v + t).toNat / 100 ∧
    l.length * (p + v + t).toNat / 100 ≤ l.length := by
  obtain ⟨⟨hp, hv, ht, hsum⟩, -, -, -⟩ := split_df_eq_ok h
  constructor
  · calc l.length * p.toNat / 100 + l.length * v.toNat / 100
        ≤ (l.length * p.toNat + l.length * v.toNat) / 100 := nat_div_add_div_le _ _ _
    _ = l.length * (p + v).toNat / 100 := by rw [← Nat.mul_add, Int.toNat_add hp hv]
    _ ≤ l.length * (p + v + t).toNat / 100 :=
        Nat.div_le_div_right (Nat.mul_le_mul_left _
          (Int.toNat_le_toNat (by linarith)))
  · calc l.length * (p + v + t).toNat / 100
        ≤ l.length * 100 / 100 :=
          Nat.div_le_div_right (Nat.mul_le_mul_left _ (Int.toNat_le.mpr hsum))
    _ = l.length := by omega

lemma split_df_lengths {l : List α} {p v t : Int} {s : Nat} {tr va te : List α}
    (h : split_df l p v t s = Except.ok (tr, va, te)) :
    tr.length = l.length * p.toNat / 100 ∧
    va.length = l.length * v.toNat / 100 ∧
    te.length = l.length * (p + v + t).toNat / 100 -
      l.length * p.toNat / 100 - l.length * v.toNat / 100 ∧
    tr.length + va.length + te.length = l.length * (p + v + t).toNat / 100 := by
  obtain ⟨hle, hn⟩ := split_df_sizes_le h
  obtain ⟨-, htr, hva, hte⟩ := split_df_eq_ok h
  subst htr hva hte
  simp only [List.length_take, List.length_drop, shuffle_length]
  omega

lemma split_df_append {l : List α} {p v t : Int} {s : Nat} {tr va te : List α}
    (h : split_df l p v t s = Except.ok (tr, va, te)) :
    tr ++ va ++ te = (shuffle s l).take (l.length * (p + v + t).toNat / 100) := by
  obtain ⟨hle, hn⟩ := split_df_sizes_le h
  obtain ⟨-, htr, hva, hte⟩ := split_df_eq_ok h
  subst htr hva hte
  rw [List.append_assoc, ← List.take_add, ← List.take_add]
  congr 1
  omega

lemma split_df_subset {l : List α} {p v t : Int} {s : Nat} {tr va te : List α}
    (h : split_df l p v t s = Except.ok (tr, va, te)) :
    ∀ r ∈ tr ++ va ++ te, r ∈ l := by
  intro r hr
  rw [split_df_append h] at hr
  exact shuffle_mem ((List.take_sublist _ _).subset hr)

lemma split_df_nodup {l : List α} {p v t : Int} {s : Nat} {tr va te : List α}
    (hl : l.Nodup) (h : split_df l p v t s = Except.ok (tr, va, te)) :
    (tr ++ va ++ te).Nodup := by
  rw [split_df_append h]
  exact (shuffle_nodup s l hl).sublist (List.take_sublist _ _)

lemma split_df_perm_of_sum_eq_100 {l : List α} {p v t : Int} {s : Nat}
    {tr va te : List α} (hsum : p + v + t = 100)
    (h : split_df l p v t s = Except.ok (tr, va, te)) :
    List.Perm (tr ++ va ++ te) l := by
  rw [split_df_append h, hsum]
  have h100 : l.length * (100 : Int).toNat / 100 = l.length := by
    have h1 : ((100 : Int)).toNat = 100 := rfl
    rw [h1]
    omega
  rw [h100, ← shuffle_length s l, List.take_length]
  exact shuffle_perm s l

lemma split_df_map (l : List α) (f : α → β) (p v t : Int) (s : Nat) :
    split_df (l.map f) p v t s =
      (split_df l p v t s).map
        (fun tri => (tri.1.map f, tri.2.1.map f, tri.2.2.map f)) := by
  unfold split_df
  simp only [List.length_map]
  split_ifs with h1 h2
  · rfl
  · rfl
  · simp [Except.map, shuffle_map, List.map_take, List.map_drop]

/-- Modelled from the spec: number of errors strictly greater than the
candidate threshold, i.e. the records predicted anomalous at that
candidate (spec 4.3: "error > threshold => predicted anomalous"). -/
def countGt (c : ℚ) : List ℚ → Nat
  | [] => 0
  | e :: es => (if c < e then 1 else 0) + countGt c es

lemma countGt_le_length (c : ℚ) : ∀ es : List ℚ, countGt c es ≤ es.length := by
  intro es
  induction es with
  | nil => simp [countGt]
  | cons e es ih =>
    simp only [countGt, List.length_cons]
    split_ifs <;> omega

lemma countGt_eq_zero {c : ℚ} {es : List ℚ} (h : ∀ x ∈ es, ¬ c < x) :
    countGt c es = 0 := by
  induction es with
  | nil => rfl
  | cons e es ih =>
    simp only [countGt]
    rw [if_neg (h e (List.mem_cons_self e es)),
      ih (fun x hx => h x (List.mem_cons_of_mem e hx))]

lemma countGt_eq_length {c : ℚ} {es : List ℚ} (h : ∀ x ∈ es, c < x) :
    countGt c es = es.length := by
  induction es with
  | nil => rfl
  | cons e es ih =>
    simp only [countGt, List.length_cons]
    rw [if_pos (h e (List.mem_cons_self e es)),
      ih (fun x hx => h x (List.mem_cons_of_mem e hx))]
    omega

/-- Modelled from the spec: precision = TP / (TP + FP), with the
convention that a zero denominator yields 0 (spec 4.4 guarantee). -/
def precisionOf (tp fp : Nat) : ℚ :=
  if tp + fp = 0 then 0 else (tp : ℚ) / ((tp : ℚ) + (fp : ℚ))

/-- Modelled from the spec: recall = TP / (TP + FN), with the convention
that a zero denominator yields 0 (spec 4.4 guarantee). -/
def recallOf (tp fn : Nat) : ℚ :=
  if tp + fn = 0 then 0 else (tp : ℚ) / ((tp : ℚ) + (fn : ℚ))

/-- Modelled from the spec: F-score as the harmonic mean of precision and
recall, 0 when precision + recall vanishes (spec 4.3 and 4.4). -/
def fbeta (p r : ℚ) : ℚ := if p + r = 0 then 0 else 2 * p * r / (p + r)

/-- Modelled from the spec: the score of one candidate threshold during
calibration (spec 4.3): ND-validation errors are negative-class,
AD-validation errors positive-class, a sample is predicted anomalous when
its error is strictly greater than the candidate, and the F-score treats
AD as the positive class. -/
def fscore_at (nd ad : List ℚ) (c : ℚ) : ℚ :=
  fbeta (precisionOf (countGt c ad) (countGt c nd))
    (recallOf (countGt c ad) (ad.length - countGt c ad))

/-- Best candidate of `c :: cs` under `score`: maximal score, smallest
candidate value among the maximizers (spec 4.3 tie-break). -/
def bestCandidate (score : ℚ → ℚ) (c : ℚ) (cs : List ℚ) : ℚ × ℚ :=
  cs.foldl
    (fun acc x =>
      if acc.2 < score x ∨ (score x = acc.2 ∧ x < acc.1) then (x, score x) else acc)
    (c, score c)

lemma bestCandidate_cons (score : ℚ → ℚ) (c x : ℚ) (cs : List ℚ) :
    bestCandidate score c (x :: cs) =
      bestCandidate score
        (if score c < score x ∨ (score x = score c ∧ x < c) then x else c) cs := by
  unfold bestCandidate
  simp only [List.foldl_cons]
  by_cases h : score c < score x ∨ (score x = score c ∧ x < c)
  · rw [if_pos h, if_pos h]
  · rw [if_neg h, if_neg h]

lemma bestCandidate_spec (score : ℚ → ℚ) : ∀ (cs : List ℚ) (c : ℚ),
    (bestCandidate score c cs).1 ∈ c :: cs ∧
    (bestCandidate score c cs).2 = score (bestCandidate score c cs).1 ∧
    (∀ x ∈ c :: cs, score x ≤ (bestCandidate score c cs).2) ∧
    (∀ x ∈ c :: cs, score x = (bestCandidate score c cs).2 →
      (bestCandidate score c cs).1 ≤ x) := by
  intro cs
  induction cs with
  | nil =>
    intro c
    refine ⟨List.mem_cons_self c [], rfl, ?_, ?_⟩
    · intro x hx
      rw [List.mem_singleton.mp hx]
      exact le_rfl
    · intro x hx _
      rw [List.mem_singleton.mp hx]
      exact le_rfl
  | cons x cs ih =>
    intro c
    rw [bestCandidate_cons]
    by_cases hcond : score c < score x ∨ (score x = score c ∧ x < c)
    · rw [if_pos hcond]
      obtain ⟨h1, h2, h3, h4⟩ := ih x
      refine ⟨List.mem_cons_of_mem c h1, h2, ?_, ?_⟩
      · intro y hy
        rcases List.mem_cons.mp hy with hyc | hy'
        · subst hyc
          have hxb := h3 x (List.mem_cons_self x cs)
          rcases hcond with hlt | ⟨heq, -⟩
          · exact le_trans (le_of_lt hlt) hxb
          · exact le_trans (le_of_eq heq.symm) hxb
        · exact h3 y hy'
      · intro y hy hyeq
        rcases List.mem_cons.mp hy with hyc | hy'
        · subst hyc
          have hxb := h3 x (List.mem_cons_self x cs)
          rcases hcond with hlt | ⟨heq, hxc⟩
          · exact absurd hyeq (ne_of_lt (lt_of_lt_of_le hlt hxb))
          · have hbx := h4 x (List.mem_cons_self x cs) (heq.trans hyeq)
            exact le_trans hbx (le_of_lt hxc)
        · exact h4 y hy' hyeq
    · rw [if_neg hcond]
      push_neg at hcond
      obtain ⟨hle, htie⟩ := hcond
      obtain ⟨h1, h2, h3, h4⟩ := ih c
      refine ⟨?_, h2, ?_, ?_⟩
      · rcases List.mem_cons.mp h1 with h | h
        · rw [h]
          exact List.mem_cons_self c (x :: cs)
        · exact List.mem_cons_of_mem c (List.mem_cons_of_mem x h)
      · intro y hy
        rcases List.mem_cons.mp hy with hyc | hy'
        · subst hyc
          exact h3 y (List.mem_cons_self y cs)
        · rcases List.mem_cons.mp hy' with hyx | hy''
          · subst hyx
            exact le_trans hle (h3 c (List.mem_cons_self c cs))
          · exact h3 y (List.mem_cons_of_mem c hy'')
      · intro y hy hyeq
        rcases List.mem_cons.mp hy with hyc | hy'
        · subst hyc
          exact h4 y (List.mem_cons_self y cs) hyeq
        · rcases List.mem_cons.mp hy' with hyx | hy''
          · subst hyx
            have hcb := h3 c (List.mem_cons_self c cs)
            have h6 : score c ≤ score y := by
              rw [hyeq]
              exact hcb
            have heq : score y = score c := le_antisymm hle h6
            have hcy : c ≤ y := htie heq
            exact le_trans (h4 c (List.mem_cons_self c cs) (heq.symm.trans hyeq)) hcy
          · exact h4 y (List.mem_cons_of_mem c hy'') hyeq

/-- Modelled from the spec: the Threshold Calibrator contract
`calibrate(nd_errors, ad_errors) -> (threshold, diagnostics)` of spec 4.3,
realized in the source by `calculate_threshold`.  Candidate thresholds are
the union of the observed error values (the first strategy the spec
names); the returned pair is the best candidate and its achieved F-score.
Fails with `InsufficientCalibrationData` when either input is empty. -/
def calibrate (nd ad : List ℚ) : Except PipelineError (ℚ × ℚ) :=
  match nd, ad with
  | [], _ => Except.error PipelineError.insufficientCalibrationData
  | _ :: _, [] => Except.error PipelineError.insufficientCalibrationData
  | c :: nds, a :: ads =>
      Except.ok (bestCandidate (fscore_at (c :: nds) (a :: ads)) c (nds ++ a :: ads))

lemma calibrate_ok {nd ad : List ℚ} (hnd : nd ≠ []) (had : ad ≠ []) :
    ∃ th f, calibrate nd ad = Except.ok (th, f) ∧ th ∈ nd ++ ad ∧
      f = fscore_at nd ad th ∧
      (∀ c ∈ nd ++ ad, fscore_at nd ad c ≤ f) ∧
      (∀ c ∈ nd ++ ad, fscore_at nd ad c = f → th ≤ c) := by
  match nd, ad with
  | [], _ => exact absurd rfl hnd
  | _ :: _, [] => exact absurd rfl had
  | c :: nds, a :: ads =>
    obtain ⟨h1, h2, h3, h4⟩ :=
      bestCandidate_spec (fscore_at (c :: nds) (a :: ads)) (nds ++ a :: ads) c
    have hcands : (c :: nds) ++ a :: ads = c :: (nds ++ a :: ads) := List.cons_append c nds _
    refine ⟨_, _, rfl, ?_, h2, ?_, ?_⟩
    · rw [hcands]; exact h1
    · intro x hx
      rw [hcands] at hx
      exact h3 x hx
    · intro x hx
      rw [hcands] at hx
      exact h4 x hx

lemma recallOf_eq_precisionOf (tp fn : Nat) : recallOf tp fn = precisionOf tp fn := rfl

lemma precisionOf_nonneg (tp fp : Nat) : 0 ≤ precisionOf tp fp := by
  unfold precisionOf
  split_ifs
  · exact le_rfl
  · exact div_nonneg (by positivity) (by positivity)

lemma precisionOf_le_one (tp fp : Nat) : precisionOf tp fp ≤ 1 := by
  unfold precisionOf
  split_ifs with h
  · exact zero_le_one
  · have hpos : (0 : ℚ) < (tp : ℚ) + (fp : ℚ) := by
      have : 0 < tp + fp := Nat.pos_of_ne_zero h
      exact_mod_cast this
    rw [div_le_one hpos]
    have : (0 : ℚ) ≤ (fp : ℚ) := by positivity
    linarith

lemma precisionOf_zero_denom {tp fp : Nat} (h : tp + fp = 0) : precisionOf tp fp = 0 := by
  unfold precisionOf
  rw [if_pos h]

lemma fbeta_nonneg {p r : ℚ} (hp : 0 ≤ p) (hr : 0 ≤ r) : 0 ≤ fbeta p r := by
  unfold fbeta
  split_ifs
  · exact le_rfl
  · exact div_nonneg (by positivity) (by positivity)

lemma fbeta_le_one {p r : ℚ} (hp : 0 ≤ p) (hp1 : p ≤ 1) (hr : 0 ≤ r) (hr1 : r ≤ 1) :
    fbeta p r ≤ 1 := by
  unfold fbeta
  split_ifs with h
  · exact zero_le_one
  · have hpos : (0 : ℚ) < p + r := lt_of_le_of_ne (by positivity) (Ne.symm h)
    rw [div_le_one hpos]
    nlinarith [mul_nonneg (sub_nonneg.mpr hp1) hr, mul_nonneg (sub_nonneg.mpr hr1) hp]

lemma fbeta_zero_denom {p r : ℚ} (h : p + r = 0) : fbeta p r = 0 := by
  unfold fbeta
  rw [if_pos h]

lemma fscore_at_nonneg (nd ad : List ℚ) (c : ℚ) : 0 ≤ fscore_at nd ad c :=
  fbeta_nonneg (precisionOf_nonneg _ _)
    (recallOf_eq_precisionOf _ _ ▸ precisionOf_nonneg _ _)

lemma fscore_at_le_one (nd ad : List ℚ) (c : ℚ) : fscore_at nd ad c ≤ 1 :=
  fbeta_le_one (precisionOf_nonneg _ _) (precisionOf_le_one _ _)
    (recallOf_eq_precisionOf _ _ ▸ precisionOf_nonneg _ _)
    (recallOf_eq_precisionOf _ _ ▸ precisionOf_le_one _ _)

lemma exists_max : ∀ (l : List ℚ), l ≠ [] → ∃ m ∈ l, ∀ x ∈ l, x ≤ m := by
  intro l
  induction l with
  | nil => intro h; exact absurd rfl h
  | cons a l ih =>
    intro _
    rcases eq_or_ne l [] with hl | hl
    · subst hl
      refine ⟨a, List.mem_cons_self a [], ?_⟩
      intro x hx
      rw [List.mem_singleton.mp hx]
    · obtain ⟨m, hm, hmax⟩ := ih hl
      rcases le_total a m with h | h
      · refine ⟨m, List.mem_cons_of_mem a hm, ?_⟩
        intro x hx
        rcases List.mem_cons.mp hx with h1 | h1
        · rw [h1]; exact h
        · exact hmax x h1
      · refine ⟨a, List.mem_cons_self a l, ?_⟩
        intro x hx
        rcases List.mem_cons.mp hx with h1 | h1
        · rw [h1]
        · exact le_trans (hmax x h1) h

lemma fscore_at_max_eq_one {nd ad : List ℚ} (had : ad ≠ []) {m : ℚ} (hm : m ∈ nd)
    (hmax : ∀ x ∈ nd, x ≤ m) (hsep : ∀ x ∈ nd, ∀ y ∈ ad, x < y) :
    fscore_at nd ad m = 1 := by
  have hfp : countGt m nd = 0 := countGt_eq_zero (fun x hx => not_lt.mpr (hmax x hx))
  have htp : countGt m ad = ad.length := countGt_eq_length (fun y hy => hsep m hm y hy)
  have hlen : ad.length ≠ 0 := fun h => had (List.length_eq_zero.mp h)
  unfold fscore_at
  rw [hfp, htp, Nat.sub_self]
  have hprec : precisionOf ad.length 0 = 1 := by
    unfold precisionOf
    rw [if_neg (by omega)]
    push_cast
    rw [add_zero]
    exact div_self (by exact_mod_cast hlen)
  rw [recallOf_eq_precisionOf, hprec]
  unfold fbeta
  rw [if_neg (by norm_num)]
  norm_num

/-- Modelled from the spec: true positives of a class-homogeneous test
subset (spec 4.4): ground truth is uniformly ND when the flag is true and
uniformly AD otherwise, "anomalous" being the positive label. -/
def evalTP (isND : Bool) (errs : List ℚ) (th : ℚ) : Nat :=
  if isND then 0 else countGt th errs

/-- Modelled from the spec: false positives of a class-homogeneous test
subset (spec 4.4). -/
def evalFP (isND : Bool) (errs : List ℚ) (th : ℚ) : Nat :=
  if isND then countGt th errs else 0

/-- Modelled from the spec: false negatives of a class-homogeneous test
subset (spec 4.4). -/
def evalFN (isND : Bool) (errs : List ℚ) (th : ℚ) : Nat :=
  if isND then 0 else errs.length - countGt th errs

/-- Modelled from the spec: the Classifier and Scorer contract
`evaluate(is_nd_class, errors, threshold) -> (predictions, precision,
recall, fscore)` of spec 4.4, called `evaluate_model` in the source.  A
record is predicted anomalous exactly when its error is strictly greater
than the threshold; metrics treat "anomalous" as the positive label with
ground truth uniform per the flag, and use the 0 convention on zero
denominators. -/
def evaluate_model (isND : Bool) (errs : List ℚ) (th : ℚ) :
    List Bool × ℚ × ℚ × ℚ :=
  (errs.map (fun e => if th < e then true else false),
   precisionOf (evalTP isND errs th) (evalFP isND errs th),
   recallOf (evalTP isND errs th) (evalFN isND errs th),
   fbeta (precisionOf (evalTP isND errs th) (evalFP isND errs th))
     (recallOf (evalTP isND errs th) (evalFN isND errs th)))

/-- Modelled from the spec: per-record reconstruction error, the mean of
squared per-feature differences between the original and reconstructed
feature vectors (spec 4.2). -/
def reconstruction_error (x y : List ℚ) : ℚ :=
  (List.zipWith (fun a b => (a - b) ^ 2) x y).sum / (x.length : ℚ)

lemma sq_sum_nonneg : ∀ (x y : List ℚ),
    0 ≤ (List.zipWith (fun a b => (a - b) ^ 2) x y).sum := by
  intro x
  induction x with
  | nil => intro y; simp
  | cons a x ih =>
    intro y
    cases y with
    | nil => simp
    | cons b y =>
      simp only [List.zipWith_cons_cons, List.sum_cons]
      have h1 : (0 : ℚ) ≤ (a - b) ^ 2 := sq_nonneg _
      have h2 := ih y
      linarith

lemma sq_sum_eq_zero_iff : ∀ (x y : List ℚ), x.length = y.length →
    ((List.zipWith (fun a b => (a - b) ^ 2) x y).sum = 0 ↔ x = y) := by
  intro x
  induction x with
  | nil =>
    intro y hy
    cases y with
    | nil => simp
    | cons b y => simp at hy
  | cons a x ih =>
    intro y hy
    cases y with
    | nil => simp at hy
    | cons b y =>
      simp only [List.length_cons, Nat.succ.injEq] at hy
      simp only [List.zipWith_cons_cons, List.sum_cons]
      rw [add_eq_zero_iff_of_nonneg (sq_nonneg _) (sq_sum_nonneg x y)]
      constructor
      · rintro ⟨h1, h2⟩
        have ha : a = b := by
          have := pow_eq_zero_iff (n := 2) (by norm_num) |>.mp h1
          linarith [sub_eq_zero.mp this]
        have hx : x = y := (ih y hy).mp h2
        rw [ha, hx]
      · intro h
        obtain ⟨h1, h2⟩ := List.cons.inj h
        subst h1
        refine ⟨by ring, (ih y hy).mpr h2⟩

/-- Modelled from the spec: the per-record prediction of the trained
model, applied row by row to a feature matrix (spec 6: `predict` maps a
feature matrix to a reconstructed matrix of the same shape, with no
cross-record dependency). -/
def autoencoder_predict (model : α → β) (rows : List α) : List β :=
  rows.map model

/-- Modelled from the spec: `extract_anomalous_data` separates the
dataset into its ND records and its AD records by the binary anomaly
label (spec 2: "partitioning normal (ND) vs. anomalous (AD) records"). -/
def extract_anomalous_data (df : List α) (isAnomalous : α → Bool) :
    List α × List α :=
  (df.filter (fun r => !(isAnomalous r)), df.filter (fun r => isAnomalous r))

/-- Source constant `RANDOM_STATE = 42` of `semi_supervised.py`. -/
def RANDOM_STATE : Nat := 42

/-- Source constant `TRAIN_ND_PERC = 60` of `semi_supervised.py`. -/
def TRAIN_ND_PERC : Int := 60

/-- Source constant `VAL_ND_PERC = 10` of `semi_supervised.py`. -/
def VAL_ND_PERC : Int := 10

/-- Source constant `TEST_ND_PERC = 30` of `semi_supervised.py`. -/
def TEST_ND_PERC : Int := 30

/-- Source constant `VAL_AD_PERC = 30` of `semi_supervised.py`. -/
def VAL_AD_PERC : Int := 30

/-- Source constant `TEST_AD_PERC = 70` of `semi_supervised.py`. -/
def TEST_AD_PERC : Int := 70

/-- The pair of feature matrices `main` passes to the model trainer
(`model_definition(n_features, train_ND, val_ND, ...)` in
`semi_supervised.py`): the train and validation blocks of the ND split.
The ND records are obtained with `extract_anomalous_data` and split with
`split_df` at the source percentages 60/10/30 and seed 42. -/
def trainerInputs (df : List α) (isAnomalous : α → Bool) :
    Except PipelineError (List α × List α) :=
  (split_df (extract_anomalous_data df isAnomalous).1
      TRAIN_ND_PERC VAL_ND_PERC TEST_ND_PERC RANDOM_STATE).map
    (fun s => (s.1, s.2.1))

/-- C1: for every non-empty list of ND-validation errors and non-empty
list of AD-validation errors, calibration scans the candidate thresholds
(the observed error values), scores each candidate by the F-score that
treats AD as the positive class and predicts anomalous exactly when the
error is strictly greater than the candidate, and returns a candidate of
maximal F-score; among the maximizers it returns the smallest threshold
value. -/
theorem calibrate_min_argmax_fscore (nd ad : List ℚ) (hnd : nd ≠ []) (had : ad ≠ []) :
    ∃ th f, calibrate nd ad = Except.ok (th, f) ∧
      th ∈ nd ++ ad ∧
      f = fbeta (precisionOf (countGt th ad) (countGt th nd))
        (recallOf (countGt th ad) (ad.length - countGt th ad)) ∧
      (∀ c ∈ nd ++ ad, fscore_at nd ad c ≤ f) ∧
      (∀ c ∈ nd ++ ad, fscore_at nd ad c = f → th ≤ c) := by
  simpa [fscore_at] using calibrate_ok hnd had

/-- Witness for C1 at ND errors `[1]` and AD errors `[2]`. -/
theorem calibrate_min_argmax_fscore_witness :
    ∃ th f, calibrate [1] [2] = Except.ok (th, f) ∧
      th ∈ [(1 : ℚ)] ++ [(2 : ℚ)] ∧
      f = fbeta (precisionOf (countGt th [2]) (countGt th [1]))
        (recallOf (countGt th [2]) (([(2 : ℚ)]).length - countGt th [2])) ∧
      (∀ c ∈ [(1 : ℚ)] ++ [(2 : ℚ)], fscore_at [1] [2] c ≤ f) ∧
      (∀ c ∈ [(1 : ℚ)] ++ [(2 : ℚ)], fscore_at [1] [2] c = f → th ≤ c) :=
  calibrate_min_argmax_fscore [1] [2] (by simp) (by simp)

lemma calibrate_example_eval :
    calibrate [1/10, 1/5, 3/20] [9/10, 4/5, 19/20] = Except.ok (1/5, 1) := by
  norm_num [calibrate, bestCandidate, fscore_at, precisionOf, recallOf, fbeta, countGt]

/-- Counterexample for C2: on ND errors `[0.1, 0.2, 0.15]` and AD errors
`[0.9, 0.8, 0.95]` calibration returns the threshold `0.2` (the largest ND
error), which achieves F-score 1 but does not lie strictly between `0.2`
and `0.8`: with the strict `error > threshold` rule the candidate `0.2`
already classifies perfectly, and the tie-break prefers the smallest
maximizing candidate. -/
theorem calibrate_example_threshold_not_interior :
    ¬ (∀ th f : ℚ, calibrate [1/10, 1/5, 3/20] [9/10, 4/5, 19/20] = Except.ok (th, f) →
        (1/5 : ℚ) < th ∧ th < 4/5) := by
  intro h
  exact absurd (h (1/5) 1 calibrate_example_eval).1 (lt_irrefl _)

/-- C2 (amended): for every pair of non-empty validation error lists in
which every AD error is strictly greater than every ND error, calibration
returns a threshold achieving F-score 1; for ND errors `[0.1, 0.2, 0.15]`
and AD errors `[0.9, 0.8, 0.95]` the returned threshold is `0.2`, the
maximum ND error, achieving F-score 1 — it lies in the half-open interval
`[0.2, 0.8)`, not strictly inside `(0.2, 0.8)`. -/
theorem calibrate_separable_fscore_one :
    (∀ nd ad : List ℚ, nd ≠ [] → ad ≠ [] → (∀ x ∈ nd, ∀ y ∈ ad, x < y) →
      ∃ th, calibrate nd ad = Except.ok (th, 1)) ∧
    calibrate [1/10, 1/5, 3/20] [9/10, 4/5, 19/20] = Except.ok (1/5, 1) ∧
    ((1/5 : ℚ) ≤ 1/5 ∧ (1/5 : ℚ) < 4/5) := by
  refine ⟨?_, calibrate_example_eval, le_rfl, by norm_num⟩
  intro nd ad hnd had hsep
  obtain ⟨th, f, hcal, hmem, hf, hmax, htie⟩ := calibrate_ok hnd had
  obtain ⟨m, hm, hmaxnd⟩ := exists_max nd hnd
  have h1 : fscore_at nd ad m = 1 := fscore_at_max_eq_one had hm hmaxnd hsep
  have hge : 1 ≤ f := h1 ▸ hmax m (List.mem_append_left ad hm)
  have hle : f ≤ 1 := hf ▸ fscore_at_le_one nd ad th
  exact ⟨th, le_antisymm hle hge ▸ hcal⟩

/-- Witness for C2 (amended) at ND errors `[1]` and AD errors `[2]`,
which are strictly separated. -/
theorem calibrate_separable_fscore_one_witness :
    ∃ th, calibrate [1] [2] = Except.ok (th, 1) :=
  calibrate_separable_fscore_one.1 [1] [2] (by simp) (by simp)
    (by intro x hx y hy; rw [List.mem_singleton.mp hx, List.mem_singleton.mp hy]; norm_num)

/-- Counterexample for C3: with the percentage triple `(0, 0, 0)` — which
is a valid triple, summing to at most 100 — the single source record `0`
appears in none of the three returned splits, refuting "every source
record appears in exactly one split". -/
theorem split_df_zero_percentages_drop_record :
    split_df ([0] : List ℕ) 0 0 0 42 = Except.ok ([], [], []) ∧
    ¬ (∀ tr va te : List ℕ, split_df ([0] : List ℕ) 0 0 0 42 = Except.ok (tr, va, te) →
        (0 ∈ tr ∨ 0 ∈ va ∨ 0 ∈ te)) := by
  have heq : split_df ([0] : List ℕ) 0 0 0 42 = Except.ok ([], [], []) := rfl
  exact ⟨heq, fun h => by simpa using h [] [] [] heq⟩

/-- C3 (amended): for every duplicate-free source Record Set and every
accepted percentage triple, the three returned splits are pairwise
disjoint subsets of the source with no duplicated record and
`|train| + |val| + |test| ≤ |R|`; every source record appears in at most
one split, and in exactly one split when the percentages sum to exactly
100 (when they sum to less, the unused remainder appears in no split). -/
theorem split_df_partition_invariants (α : Type) (R : List α) (p v t : Int)
    (s : Nat) (tr va te : List α) (hnd : R.Nodup)
    (h : split_df R p v t s = Except.ok (tr, va, te)) :
    (tr ++ va ++ te).Nodup ∧
    (∀ r ∈ tr ++ va ++ te, r ∈ R) ∧
    tr.length + va.length + te.length ≤ R.length ∧
    (p + v + t = 100 → List.Perm (tr ++ va ++ te) R) := by
  refine ⟨split_df_nodup hnd h, split_df_subset h, ?_,
    fun hsum => split_df_perm_of_sum_eq_100 hsum h⟩
  have h1 := (split_df_lengths h).2.2.2
  have h2 := (split_df_sizes_le h).2
  omega

/-- Witness for C3 (amended) on the three-record set `[0, 1, 2]` with the
source ND percentages 60/10/30 and seed 42. -/
theorem split_df_partition_invariants_witness :
    (([0] : List ℕ) ++ [] ++ [2, 1]).Nodup ∧
    (∀ r ∈ ([0] : List ℕ) ++ [] ++ [2, 1], r ∈ [0, 1, 2]) ∧
    ([0] : List ℕ).length + ([] : List ℕ).length + ([2, 1] : List ℕ).length ≤
      ([0, 1, 2] : List ℕ).length ∧
    ((60 : Int) + 10 + 30 = 100 →
      List.Perm (([0] : List ℕ) ++ [] ++ [2, 1]) [0, 1, 2]) :=
  split_df_partition_invariants ℕ [0, 1, 2] 60 10 30 42 [0] [] [2, 1]
    (by decide) rfl

/-- C4: the split is deterministic — two calls with the same seed and the
same inputs return identical partitions — and, as the pipeline requires
when it splits the AD originals and the AD reconstructions separately with
the same seed, splitting any two equal-length record lists with the same
percentages and seed produces splits of pairwise equal lengths, so the
resulting subsets can be paired row by row. -/
theorem split_df_deterministic_aligned :
    (∀ (α : Type) (R₁ R₂ : List α) (p v t : Int) (s : Nat), R₁ = R₂ →
      split_df R₁ p v t s = split_df R₂ p v t s) ∧
    (∀ (α β : Type) (l₁ : List α) (l₂ : List β) (p v t : Int) (s : Nat)
      (tr₁ va₁ te₁ : List α) (tr₂ va₂ te₂ : List β),
      l₁.length = l₂.length →
      split_df l₁ p v t s = Except.ok (tr₁, va₁, te₁) →
      split_df l₂ p v t s = Except.ok (tr₂, va₂, te₂) →
      tr₁.length = tr₂.length ∧ va₁.length = va₂.length ∧
        te₁.length = te₂.length) := by
  constructor
  · intro α R₁ R₂ p v t s h
    rw [h]
  · intro α β l₁ l₂ p v t s tr₁ va₁ te₁ tr₂ va₂ te₂ hlen h₁ h₂
    obtain ⟨ha₁, hb₁, hc₁, -⟩ := split_df_lengths h₁
    obtain ⟨ha₂, hb₂, hc₂, -⟩ := split_df_lengths h₂
    rw [ha₁, hb₁, hc₁, ha₂, hb₂, hc₂, hlen]
    exact ⟨rfl, rfl, rfl⟩

/-- Witness for C4: the AD originals `[0, 1]` and the equal-length AD
reconstructions `[5, 6]`, split with the source AD percentages 0/30/70 and
seed 42, give componentwise equal split sizes. -/
theorem split_df_deterministic_aligned_witness :
    split_df ([0, 1] : List ℕ) 0 30 70 42 = split_df ([0, 1] : List ℕ) 0 30 70 42 ∧
    (([] : List ℕ).length = ([] : List ℕ).length ∧
      ([] : List ℕ).length = ([] : List ℕ).length ∧
      ([0, 1] : List ℕ).length = ([5, 6] : List ℕ).length) :=
  ⟨split_df_deterministic_aligned.1 ℕ [0, 1] [0, 1] 0 30 70 42 rfl,
    split_df_deterministic_aligned.2 ℕ ℕ [0, 1] [5, 6] 0 30 70 42
      [] [] [0, 1] [] [] [5, 6] rfl rfl rfl⟩

/-- C7: `split(R, 0, 30, 70, seed)` returns an empty train set with
`|val| + |test| = |R|` exactly (the percentages sum to 100, and the test
block absorbs the rounding remainder); in general the three split sizes
sum to `⌊|R| * (p + v + t) / 100⌋`, so when the percentages sum to less
than 100 the unused remainder of records is excluded from all three
returned sets. -/
theorem split_df_zero_train_remainder :
    (∀ (α : Type) (R : List α) (s : Nat) (tr va te : List α),
      split_df R 0 30 70 s = Except.ok (tr, va, te) →
      tr = [] ∧ va.length + te.length = R.length) ∧
    (∀ (α : Type) (R : List α) (p v t : Int) (s : Nat) (tr va te : List α),
      split_df R p v t s = Except.ok (tr, va, te) →
      tr.length + va.length + te.length = R.length * (p + v + t).toNat / 100) := by
  constructor
  · intro α R s tr va te h
    obtain ⟨ha, -, -, hsum⟩ := split_df_lengths h
    have ha0 : tr.length = 0 := by simpa using ha
    refine ⟨List.length_eq_zero.mp ha0, ?_⟩
    have h100 : ((0 : Int) + 30 + 70).toNat = 100 := rfl
    rw [h100] at hsum
    omega
  · intro α R p v t s tr va te h
    exact (split_df_lengths h).2.2.2

/-- Witness for C7 on the record set `[0, 1, 2]` with seed 42 (first part)
and percentages 0/20/20 on `[0, 1, 2, 3, 4]` (second part, sum 40 < 100:
only `⌊5 * 40 / 100⌋ = 2` records are used). -/
theorem split_df_zero_train_remainder_witness :
    (([] : List ℕ) = [] ∧ ([] : List ℕ).length + ([0, 2, 1] : List ℕ).length =
      ([0, 1, 2] : List ℕ).length) ∧
    ([] : List ℕ).length + ([2] : List ℕ).length + ([4] : List ℕ).length =
      ([0, 1, 2, 3, 4] : List ℕ).length * ((0 : Int) + 20 + 20).toNat / 100 :=
  ⟨split_df_zero_train_remainder.1 ℕ [0, 1, 2] 42 [] [] [0, 2, 1] rfl,
    split_df_zero_train_remainder.2 ℕ [0, 1, 2, 3, 4] 0 20 20 42 [] [2] [4] rfl⟩

/-- C9: the split fails with `InvalidSplitConfig` exactly when a
percentage is negative or the three sum to more than 100; with a valid
configuration it fails with `EmptyInput` exactly when the source is empty
and a non-zero percentage is requested; no other error is produced, and a
failing call produces no partial result (an error and an ok result are
mutually exclusive). -/
theorem split_df_error_conditions (α : Type) (l : List α) (p v t : Int) (s : Nat) :
    (split_df l p v t s = Except.error PipelineError.invalidSplitConfig ↔
      (p < 0 ∨ v < 0 ∨ t < 0 ∨ 100 < p + v + t)) ∧
    (¬(p < 0 ∨ v < 0 ∨ t < 0 ∨ 100 < p + v + t) →
      (split_df l p v t s = Except.error PipelineError.emptyInput ↔
        (l = [] ∧ (0 < p ∨ 0 < v ∨ 0 < t)))) ∧
    (∀ e, split_df l p v t s = Except.error e →
      e = PipelineError.invalidSplitConfig ∨ e = PipelineError.emptyInput) ∧
    ((∃ e, split_df l p v t s = Except.error e) ↔
      ¬ ∃ res, split_df l p v t s = Except.ok res) := by
  unfold split_df
  split_ifs with h1 h2
  · refine ⟨by simp [h1], fun hcon => absurd h1 hcon, ?_, by simp⟩
    intro e he
    exact Or.inl (Except.error.inj he).symm
  · obtain ⟨hlen, hpos⟩ := h2
    refine ⟨by simp [h1], fun _ => ?_, ?_, by simp⟩
    · simp [List.length_eq_zero.mp hlen, hpos]
    · intro e he
      exact Or.inr (Except.error.inj he).symm
  · push_neg at h2
    refine ⟨by simp [h1], fun _ => ?_, by simp, by simp⟩
    have hno : ¬(l = [] ∧ (0 < p ∨ 0 < v ∨ 0 < t)) := by
      rintro ⟨hnil, hpos⟩
      obtain ⟨hp, hv, ht⟩ := h2 (by rw [hnil]; rfl)
      rcases hpos with h | h | h <;> linarith
    simp [hno]

/-- Witness for C9: with a negative train percentage on an empty input the
call fails with `InvalidSplitConfig` (the configuration check precedes the
emptiness check). -/
theorem split_df_error_conditions_witness :
    split_df ([] : List ℕ) (-1) 30 70 42 = Except.error PipelineError.invalidSplitConfig :=
  (split_df_error_conditions ℕ [] (-1) 30 70 42).1.mpr (by norm_num)

/-- C5: for every error sequence and threshold, the evaluator predicts
anomalous exactly for the records whose error strictly exceeds the
threshold, returns the predictions aligned one-to-one with the input
order (as a map over the input list, hence of equal length), and returns
precision, recall and F-score in `[0, 1]`, with the fixed convention that
a metric whose denominator is zero equals 0. -/
theorem evaluate_model_contract (isND : Bool) (errs : List ℚ) (th : ℚ) :
    (evaluate_model isND errs th).1 = errs.map (fun e => if th < e then true else false) ∧
    (evaluate_model isND errs th).1.length = errs.length ∧
    (0 ≤ (evaluate_model isND errs th).2.1 ∧ (evaluate_model isND errs th).2.1 ≤ 1) ∧
    (0 ≤ (evaluate_model isND errs th).2.2.1 ∧ (evaluate_model isND errs th).2.2.1 ≤ 1) ∧
    (0 ≤ (evaluate_model isND errs th).2.2.2 ∧ (evaluate_model isND errs th).2.2.2 ≤ 1) ∧
    (∀ tp fp : Nat, tp + fp = 0 → precisionOf tp fp = 0) ∧
    (∀ tp fn : Nat, tp + fn = 0 → recallOf tp fn = 0) ∧
    (∀ pr rc : ℚ, pr + rc = 0 → fbeta pr rc = 0) := by
  refine ⟨rfl, by simp [evaluate_model], ?_, ?_, ?_, ?_, ?_, ?_⟩
  · exact ⟨precisionOf_nonneg _ _, precisionOf_le_one _ _⟩
  · rw [show (evaluate_model isND errs th).2.2.1 =
      recallOf (evalTP isND errs th) (evalFN isND errs th) from rfl,
      recallOf_eq_precisionOf]
    exact ⟨precisionOf_nonneg _ _, precisionOf_le_one _ _⟩
  · refine ⟨fbeta_nonneg (precisionOf_nonneg _ _) ?_, fbeta_le_one
      (precisionOf_nonneg _ _) (precisionOf_le_one _ _) ?_ ?_⟩
    · rw [recallOf_eq_precisionOf]
      exact precisionOf_nonneg _ _
    · rw [recallOf_eq_precisionOf]
      exact precisionOf_nonneg _ _
    · rw [recallOf_eq_precisionOf]
      exact precisionOf_le_one _ _
  · exact fun tp fp h => precisionOf_zero_denom h
  · exact fun tp fn h => recallOf_eq_precisionOf tp fn ▸ precisionOf_zero_denom h
  · exact fun pr rc h => fbeta_zero_denom h

/-- Witness for C5 on the ND test subset with errors `[1, 2]` and
threshold `1` (the second record is predicted anomalous, a false
positive). -/
theorem evaluate_model_contract_witness :
    (evaluate_model true [1, 2] 1).1 =
      ([1, 2] : List ℚ).map (fun e => if (1 : ℚ) < e then true else false) ∧
    (evaluate_model true [1, 2] 1).1.length = ([1, 2] : List ℚ).length ∧
    (0 ≤ (evaluate_model true [1, 2] 1).2.1 ∧ (evaluate_model true [1, 2] 1).2.1 ≤ 1) ∧
    (0 ≤ (evaluate_model true [1, 2] 1).2.2.1 ∧
      (evaluate_model true [1, 2] 1).2.2.1 ≤ 1) ∧
    (0 ≤ (evaluate_model true [1, 2] 1).2.2.2 ∧
      (evaluate_model true [1, 2] 1).2.2.2 ≤ 1) ∧
    (∀ tp fp : Nat, tp + fp = 0 → precisionOf tp fp = 0) ∧
    (∀ tp fn : Nat, tp + fn = 0 → recallOf tp fn = 0) ∧
    (∀ pr rc : ℚ, pr + rc = 0 → fbeta pr rc = 0) :=
  evaluate_model_contract true [1, 2] 1

/-- C6: the reconstruction model is fit exclusively on normal data: in
the source, `model_definition` receives the train and validation feature
matrices `train_ND` and `val_ND` produced by `split_df` on the
ND-filtered records, so every record of both matrices carries a negative
anomaly label, and the training matrix is exactly the ND-train split. -/
theorem model_trained_only_on_ND (α : Type) (df : List α) (isAnomalous : α → Bool)
    (tr va : List α) (h : trainerInputs df isAnomalous = Except.ok (tr, va)) :
    (∀ r ∈ tr, isAnomalous r = false) ∧
    (∀ r ∈ va, isAnomalous r = false) ∧
    ∃ te, split_df (extract_anomalous_data df isAnomalous).1
        TRAIN_ND_PERC VAL_ND_PERC TEST_ND_PERC RANDOM_STATE = Except.ok (tr, va, te) := by
  unfold trainerInputs at h
  cases hs : split_df (extract_anomalous_data df isAnomalous).1
      TRAIN_ND_PERC VAL_ND_PERC TEST_ND_PERC RANDOM_STATE with
  | error e =>
    rw [hs] at h
    exact absurd h (by simp [Except.map])
  | ok res =>
    obtain ⟨a, b, c⟩ := res
    rw [hs] at h
    simp only [Except.map, Except.ok.injEq, Prod.mk.injEq] at h
    obtain ⟨h1, h2⟩ := h
    subst h1
    subst h2
    have hnd : ∀ r ∈ a ++ b ++ c, isAnomalous r = false := by
      intro r hr
      have hmem := split_df_subset hs r hr
      have := (List.mem_filter.mp hmem).2
      simpa using this
    refine ⟨?_, ?_, c, rfl⟩
    · intro r hr
      exact hnd r (List.mem_append_left c (List.mem_append_left b hr))
    · intro r hr
      exact hnd r (List.mem_append_left c (List.mem_append_right a hr))

/-- Witness for C6 on a two-record dataset whose records `0, 1` are both
normal under the label `isAnomalous n = decide (10 ≤ n)`. -/
theorem model_trained_only_on_ND_witness :
    (∀ r ∈ ([0] : List ℕ), (fun n => decide (10 ≤ n)) r = false) ∧
    (∀ r ∈ ([] : List ℕ), (fun n => decide (10 ≤ n)) r = false) ∧
    ∃ te, split_df (extract_anomalous_data [0, 1] (fun n => decide (10 ≤ n))).1
        TRAIN_ND_PERC VAL_ND_PERC TEST_ND_PERC RANDOM_STATE =
      Except.ok ([0], [], te) :=
  model_trained_only_on_ND ℕ [0, 1] (fun n => decide (10 ≤ n)) [0] [] rfl

/-- C8: for equal-shaped original and reconstructed feature vectors the
per-record reconstruction error (mean squared per-feature difference) is
non-negative, and it is zero exactly when the reconstruction equals the
original in every feature — hence strictly positive whenever any feature
differs. -/
theorem reconstruction_error_nonneg_zero_iff (x y : List ℚ) (h : x.length = y.length) :
    0 ≤ reconstruction_error x y ∧ (reconstruction_error x y = 0 ↔ x = y) := by
  unfold reconstruction_error
  refine ⟨div_nonneg (sq_sum_nonneg x y) (by positivity), ?_⟩
  rcases eq_or_ne x [] with hx | hx
  · subst hx
    have hy : y = [] := List.length_eq_zero.mp h.symm
    subst hy
    simp
  · have hlen : ((x.length : ℚ)) ≠ 0 := by
      have := List.length_pos.mpr hx
      positivity
    rw [div_eq_zero_iff]
    constructor
    · rintro (hsum | hbad)
      · exact (sq_sum_eq_zero_iff x y h).mp hsum
      · exact absurd hbad hlen
    · intro hxy
      exact Or.inl ((sq_sum_eq_zero_iff x y h).mpr hxy)

/-- Witness for C8 on the equal-length vectors `[1, 2]` and `[1, 3]`. -/
theorem reconstruction_error_nonneg_zero_iff_witness :
    0 ≤ reconstruction_error [1, 2] [1, 3] ∧
    (reconstruction_error [1, 2] [1, 3] = 0 ↔ ([1, 2] : List ℚ) = [1, 3]) :=
  reconstruction_error_nonneg_zero_iff [1, 2] [1, 3] rfl

/-- C10: per-row prediction commutes with the deterministic split:
splitting the row-wise predictions of a record list, with any percentages
and seed, equals mapping the prediction over each subset of the split of
the originals; in particular, at the pipeline's AD configuration
(train 0, `VAL_AD_PERC`, `TEST_AD_PERC`, seed `RANDOM_STATE`), the
validation and test blocks of the decoded AD data are exactly the row-wise
predictions of the validation and test blocks of the original AD data, so
the pairs are row-aligned. -/
theorem predict_commutes_with_split :
    (∀ (α β : Type) (model : α → β) (rows : List α) (p v t : Int) (s : Nat),
      split_df (autoencoder_predict model rows) p v t s =
        (split_df rows p v t s).map
          (fun tri => (autoencoder_predict model tri.1,
            autoencoder_predict model tri.2.1, autoencoder_predict model tri.2.2))) ∧
    (∀ (α β : Type) (model : α → β) (adRows tr va te : List α),
      split_df adRows 0 VAL_AD_PERC TEST_AD_PERC RANDOM_STATE =
        Except.ok (tr, va, te) →
      split_df (autoencoder_predict model adRows) 0 VAL_AD_PERC TEST_AD_PERC
          RANDOM_STATE =
        Except.ok (autoencoder_predict model tr, autoencoder_predict model va,
          autoencoder_predict model te)) := by
  have hgen : ∀ (α β : Type) (model : α → β) (rows : List α) (p v t : Int) (s : Nat),
      split_df (autoencoder_predict model rows) p v t s =
        (split_df rows p v t s).map
          (fun tri => (autoencoder_predict model tri.1,
            autoencoder_predict model tri.2.1, autoencoder_predict model tri.2.2)) := by
    intro α β model rows p v t s
    exact split_df_map rows model p v t s
  refine ⟨hgen, ?_⟩
  intro α β model adRows tr va te h
  rw [hgen α β model adRows 0 VAL_AD_PERC TEST_AD_PERC RANDOM_STATE, h]
  rfl

/-- Witness for C10: predicting the AD rows `[0, 1]` with the model
`n + 1` and splitting with the source AD configuration yields the
predictions of the split blocks. -/
theorem predict_commutes_with_split_witness :
    split_df (autoencoder_predict (fun n => n + 1) ([0, 1] : List ℕ)) 0 VAL_AD_PERC
        TEST_AD_PERC RANDOM_STATE =
      Except.ok (autoencoder_predict (fun n => n + 1) ([] : List ℕ),
        autoencoder_predict (fun n => n + 1) ([] : List ℕ),
        autoencoder_predict (fun n => n + 1) ([0, 1] : List ℕ)) :=
  predict_commutes_with_split.2 ℕ ℕ (fun n => n + 1) [0, 1] [] [] [0, 1] rfl

end HPCAnomaly
